import Mathlib

/-!
Verification of the query-time matching and ranking engine of the search
component (search/query.cpp).  Characters of normalized Unicode strings are
modelled as natural numbers, token sequences as lists.  Costs and bitmasks
are natural numbers; the signed remaining-result budget is an integer,
mirroring the int arithmetic of the source.
-/

namespace OrganicSearch

/-- Constant from the source: GetMaxKeywordMatchScore returns 512, the cost
ceiling for full keyword matches. -/
def GetMaxKeywordMatchScore : Nat := 512

/-- Size-dependent prefix-match cost ceiling from the source:
GetMaxPrefixMatchScore. -/
def GetMaxPrefixMatchScore (size : Nat) : Nat :=
  if size < 3 then 1
  else if size < 6 then 256
  else 512

/-- Character-comparison loop shared by KeywordMatch and PrefixMatch in
query.cpp: both walk sequence A against sequence B and return maxCost + 1 at
the first mismatching character, 0 when A is exhausted without mismatch. -/
def matchLoop (maxCost : Nat) : List Nat → List Nat → Nat
  | [], _ => 0
  | _ :: _, [] => maxCost + 1
  | x :: xs, y :: ys => if x = y then matchLoop maxCost xs ys else maxCost + 1

/-- KeywordMatch from query.cpp: sequences of unequal length score
maxCost + 1 at once, otherwise the character loop runs. -/
def KeywordMatch (sA sB : List Nat) (maxCost : Nat) : Nat :=
  if sA.length ≠ sB.length then maxCost + 1 else matchLoop maxCost sA sB

/-- PrefixMatch from query.cpp: a first sequence longer than the second
scores maxCost + 1 at once, otherwise the character loop runs. -/
def PrefixMatch (sA sB : List Nat) (maxCost : Nat) : Nat :=
  if sB.length < sA.length then maxCost + 1 else matchLoop maxCost sA sB

theorem matchLoop_dichotomy (m : Nat) :
    ∀ a b : List Nat, matchLoop m a b = 0 ∨ matchLoop m a b = m + 1
  | [], _ => Or.inl rfl
  | _ :: _, [] => Or.inr rfl
  | x :: xs, y :: ys => by
    by_cases h : x = y
    · simpa [matchLoop, h] using matchLoop_dichotomy m xs ys
    · simp [matchLoop, h]

theorem matchLoop_eq_zero_iff (m : Nat) :
    ∀ a b : List Nat, a.length ≤ b.length →
      (matchLoop m a b = 0 ↔ ∃ r, b = a ++ r)
  | [], b, _ => by simp [matchLoop]
  | _ :: xs, [], h => by simp at h
  | x :: xs, y :: ys, h => by
    by_cases hxy : x = y
    · subst hxy
      have ih := matchLoop_eq_zero_iff m xs ys (by simpa using h)
      simp only [matchLoop, eq_self_iff_true, if_true]
      rw [ih]
      exact exists_congr fun r => by simp
    · simp only [matchLoop, if_neg hxy]
      constructor
      · intro h0; omega
      · rintro ⟨r, hr⟩
        simp only [List.cons_append, List.cons.injEq] at hr
        exact absurd hr.1.symm hxy

theorem KeywordMatch_eq_zero_iff (a b : List Nat) (m : Nat) :
    KeywordMatch a b m = 0 ↔ a = b := by
  unfold KeywordMatch
  by_cases h : a.length = b.length
  · simp only [h, ne_eq, not_true_eq_false, if_false]
    rw [matchLoop_eq_zero_iff m a b (le_of_eq h)]
    constructor
    · rintro ⟨r, rfl⟩
      have h2 := h
      rw [List.length_append] at h2
      have hr : r = [] := List.length_eq_zero.mp (by omega)
      simp [hr]
    · rintro rfl; exact ⟨[], by simp⟩
  · simp only [ne_eq, h, not_false_eq_true, if_true]
    constructor
    · intro h0; omega
    · rintro rfl; exact absurd rfl h

theorem KeywordMatch_dichotomy (a b : List Nat) (m : Nat) :
    KeywordMatch a b m = 0 ∨ KeywordMatch a b m = m + 1 := by
  unfold KeywordMatch
  by_cases h : a.length ≠ b.length
  · simp [h]
  · simpa [h] using matchLoop_dichotomy m a b

theorem PrefixMatch_eq_zero_iff (a b : List Nat) (m : Nat) :
    PrefixMatch a b m = 0 ↔ ∃ r, b = a ++ r := by
  unfold PrefixMatch
  by_cases h : b.length < a.length
  · simp only [h, if_true]
    constructor
    · intro h0; omega
    · rintro ⟨r, rfl⟩
      rw [List.length_append] at h; omega
  · simp only [h, if_false]
    exact matchLoop_eq_zero_iff m a b (by omega)

theorem PrefixMatch_dichotomy (a b : List Nat) (m : Nat) :
    PrefixMatch a b m = 0 ∨ PrefixMatch a b m = m + 1 := by
  unfold PrefixMatch
  by_cases h : b.length < a.length
  · simp [h]
  · simpa [h] using matchLoop_dichotomy m a b

/-- Claim C5: the keyword-match cost is 0 exactly when the two token
character sequences are equal (equal length and every character matching in
order); otherwise it is exactly maxCost + 1, strictly above the configured
ceiling of 512 for full keyword match, and no intermediate cost occurs. -/
theorem claim5_keyword_match (a b : List Nat) (m : Nat) :
    (KeywordMatch a b m = 0 ↔ a = b) ∧
    (a ≠ b → KeywordMatch a b m = m + 1) ∧
    GetMaxKeywordMatchScore = 512 ∧
    (KeywordMatch a b GetMaxKeywordMatchScore = 0 ∨
      GetMaxKeywordMatchScore < KeywordMatch a b GetMaxKeywordMatchScore) := by
  refine ⟨KeywordMatch_eq_zero_iff a b m, ?_, rfl, ?_⟩
  · intro hne
    rcases KeywordMatch_dichotomy a b m with h | h
    · exact absurd ((KeywordMatch_eq_zero_iff a b m).mp h) hne
    · exact h
  · rcases KeywordMatch_dichotomy a b GetMaxKeywordMatchScore with h | h
    · exact Or.inl h
    · exact Or.inr (by omega)

/-- Claim C5 witness: a concrete mismatching pair scores maxCost + 1. -/
theorem claim5_keyword_match_witness :
    KeywordMatch [7, 8] [7, 9] 512 = 513 :=
  (claim5_keyword_match [7, 8] [7, 9] 512).2.1 (by decide)

/-- Claim C6: the prefix-match cost is 0 exactly when the candidate token
starts with the prefix character-for-character (so the prefix is not longer
than the token); any mismatch yields maxCost + 1; and the ceiling is 1 for
prefix length below 3, 256 below 6, and 512 otherwise. -/
theorem claim6_prefix_match (p t : List Nat) (m n : Nat) :
    (PrefixMatch p t m = 0 ↔ ∃ r, t = p ++ r) ∧
    (PrefixMatch p t m = 0 ∨ PrefixMatch p t m = m + 1) ∧
    (n < 3 → GetMaxPrefixMatchScore n = 1) ∧
    (3 ≤ n → n < 6 → GetMaxPrefixMatchScore n = 256) ∧
    (6 ≤ n → GetMaxPrefixMatchScore n = 512) := by
  refine ⟨PrefixMatch_eq_zero_iff p t m, PrefixMatch_dichotomy p t m, ?_, ?_, ?_⟩
  · intro h; simp [GetMaxPrefixMatchScore, h]
  · intro h3 h6
    simp only [GetMaxPrefixMatchScore]
    rw [if_neg (by omega), if_pos h6]
  · intro h
    simp only [GetMaxPrefixMatchScore]
    rw [if_neg (by omega), if_neg (by omega)]

/-- Claim C6 witness: concrete instances of the prefix-match facts. -/
theorem claim6_prefix_match_witness :
    PrefixMatch [4, 5] [4, 5, 6] 1 = 0 ∧
    GetMaxPrefixMatchScore 2 = 1 ∧
    GetMaxPrefixMatchScore 4 = 256 ∧
    GetMaxPrefixMatchScore 9 = 512 := by
  have h := claim6_prefix_match [4, 5] [4, 5, 6] 1 2
  have h4 := claim6_prefix_match [4, 5] [4, 5, 6] 1 4
  have h9 := claim6_prefix_match [4, 5] [4, 5, 6] 1 9
  exact ⟨(h.1).mpr ⟨[6], rfl⟩, h.2.2.1 (by decide),
    h4.2.2.2.1 (by decide) (by decide), h9.2.2.2.2 (by decide)⟩

/-! ### Result Ranker (Query::AddResult, Query::FlushResults)

Modelled from the spec: IntermediateResult values are ordered by cost,
lower cost = better, and the collection is a max-cost priority queue whose
top is the worst retained entry.  The queue state is embedded as the
ascending-sorted list of retained costs, so the top of the queue is the
last element of the list. -/

/-- Ascending sort by cost, used to state the best-K property. -/
def sortA (l : List Nat) : List Nat := List.insertionSort (· ≤ ·) l

/-- AddResult from query.cpp (Query::AddResult): insert while fewer than n
entries are held; otherwise a candidate strictly better than the worst
retained entry evicts it, anything else is discarded. -/
def AddResult (n : Nat) (st : List Nat) (c : Nat) : List Nat :=
  if st.length < n then List.orderedInsert (· ≤ ·) c st
  else
    match st.getLast? with
    | none => st
    | some w => if c < w then List.orderedInsert (· ≤ ·) c st.dropLast else st

theorem AddResult_sorted {st : List Nat} (hs : List.Sorted (· ≤ ·) st)
    (n c : Nat) : List.Sorted (· ≤ ·) (AddResult n st c) := by
  unfold AddResult
  split
  · exact hs.orderedInsert c st
  · cases hgl : st.getLast? with
    | none => exact hs
    | some w =>
      dsimp only
      split
      · exact List.Sorted.orderedInsert c st.dropLast
          (List.Pairwise.sublist (List.dropLast_sublist st) hs)
      · exact hs

theorem AddResult_length {st : List Nat} {n : Nat} (h : st.length ≤ n)
    (c : Nat) : (AddResult n st c).length ≤ n := by
  unfold AddResult
  split
  · rw [List.orderedInsert_length]; omega
  · cases hgl : st.getLast? with
    | none => exact h
    | some w =>
      dsimp only
      split
      · rw [List.orderedInsert_length, List.length_dropLast]
        have hne : st ≠ [] := by intro he; subst he; simp at hgl
        have hpos : 0 < st.length := List.length_pos.mpr hne
        omega
      · exact h

theorem sorted_le_getLast {st : List Nat} {w : Nat}
    (hs : List.Sorted (· ≤ ·) st) (hgl : st.getLast? = some w) :
    ∀ x ∈ st, x ≤ w := by
  intro x hx
  have hne : st ≠ [] := by intro he; subst he; simp at hgl
  have hw : st.getLast hne = w := by
    rw [List.getLast?_eq_getLast st hne] at hgl
    exact Option.some.inj hgl
  have hsplit : st.dropLast ++ [st.getLast hne] = st :=
    List.dropLast_append_getLast hne
  rw [← hsplit] at hx
  have hs2 : List.Pairwise (· ≤ ·) (st.dropLast ++ [st.getLast hne]) := by
    rw [hsplit]; exact hs
  rw [List.pairwise_append] at hs2
  rcases List.mem_append.mp hx with hx1 | hx2
  · have hle := hs2.2.2 x hx1 (st.getLast hne) (by simp)
    omega
  · have : x = st.getLast hne := by simpa using hx2
    omega

theorem sorted_take_eq_replicate (w : Nat) :
    ∀ (s : List Nat) (n : Nat), List.Sorted (· ≤ ·) s →
      (∀ x ∈ s, w ≤ x) → n ≤ s.countP (fun x => x ≤ w) →
      s.take n = List.replicate n w
  | _, 0, _, _, _ => by simp
  | [], n + 1, _, _, hc => by simp at hc
  | b :: t, n + 1, hs, hw, hc => by
    have hb : b = w := by
      have hpos : 0 < (b :: t).countP (fun x => x ≤ w) := by omega
      rcases List.countP_pos_iff.mp hpos with ⟨x, hx, hxw⟩
      have hwx : w ≤ x := hw x hx
      have hxw2 : x ≤ w := by simpa using hxw
      have hbx : b ≤ x := by
        rcases List.mem_cons.mp hx with rfl | hx2
        · exact le_refl _
        · exact List.rel_of_sorted_cons hs x hx2
      have hwb : w ≤ b := hw b (by simp)
      omega
    have hcnt : (b :: t).countP (fun x => x ≤ w)
        = t.countP (fun x => x ≤ w) + 1 :=
      List.countP_cons_of_pos _ t (by simp [hb])
    have ht : t.take n = List.replicate n w := by
      refine sorted_take_eq_replicate w t n hs.of_cons
        (fun x hx => hw x (List.mem_cons_of_mem b hx)) ?_
      omega
    rw [List.take_succ_cons, ht, hb, List.replicate_succ]

theorem take_orderedInsert_of_countP (w : Nat) :
    ∀ (s : List Nat) (n : Nat), List.Sorted (· ≤ ·) s →
      n ≤ s.countP (fun x => x ≤ w) →
      (List.orderedInsert (· ≤ ·) w s).take n = s.take n
  | _, 0, _, _ => by simp
  | [], n + 1, _, hc => by simp at hc
  | b :: t, n + 1, hs, hc => by
    by_cases hwb : w ≤ b
    · simp only [List.orderedInsert, if_pos hwb]
      have hall : ∀ x ∈ b :: t, w ≤ x := by
        intro x hx
        rcases List.mem_cons.mp hx with rfl | hx2
        · exact hwb
        · exact le_trans hwb (List.rel_of_sorted_cons hs x hx2)
      have h1 : (b :: t).take (n + 1) = List.replicate (n + 1) w :=
        sorted_take_eq_replicate w (b :: t) (n + 1) hs hall hc
      have h2 : (b :: t).take n = List.replicate n w :=
        sorted_take_eq_replicate w (b :: t) n hs hall (by omega)
      rw [List.take_succ_cons, h2, h1, List.replicate_succ]
    · simp only [List.orderedInsert, if_neg hwb]
      have hbw : b ≤ w := le_of_not_le hwb
      have hcnt : (b :: t).countP (fun x => x ≤ w)
          = t.countP (fun x => x ≤ w) + 1 :=
        List.countP_cons_of_pos _ t (by simpa using hbw)
      rw [List.take_succ_cons, List.take_succ_cons,
        take_orderedInsert_of_countP w t n hs.of_cons (by omega)]

theorem sortA_eq_of_perm {X Y : List Nat} (h : X.Perm Y) : sortA X = sortA Y :=
  List.eq_of_perm_of_sorted
    ((List.perm_insertionSort _ X).trans
      (h.trans (List.perm_insertionSort _ Y).symm))
    (List.sorted_insertionSort _ X) (List.sorted_insertionSort _ Y)

theorem sortA_snoc (M : List Nat) (w : Nat) :
    sortA (M ++ [w]) = List.orderedInsert (· ≤ ·) w (sortA M) :=
  List.eq_of_perm_of_sorted
    ((List.perm_insertionSort _ (M ++ [w])).trans
      (((List.perm_append_singleton w M).trans
        ((List.perm_insertionSort _ M).symm.cons w)).trans
        (List.perm_orderedInsert _ w (sortA M)).symm))
    (List.sorted_insertionSort _ (M ++ [w]))
    (List.Sorted.orderedInsert w (sortA M) (List.sorted_insertionSort _ M))

theorem take_sortA_snoc (M : List Nat) (w : Nat) (n : Nat)
    (h : n ≤ M.countP (fun x => x ≤ w)) :
    (sortA (M ++ [w])).take n = (sortA M).take n := by
  rw [sortA_snoc]
  refine take_orderedInsert_of_countP w (sortA M) n
    (List.sorted_insertionSort _ M) ?_
  simp only [sortA]
  rwa [(List.perm_insertionSort (· ≤ ·) M).countP_eq]

theorem foldl_AddResult_eq (n : Nat) :
    ∀ (cs : List Nat) (st : List Nat), List.Sorted (· ≤ ·) st →
      st.length ≤ n → cs.foldl (AddResult n) st = (sortA (st ++ cs)).take n
  | [], st, hs, hl => by
    simp only [List.foldl_nil, List.append_nil, sortA, hs.insertionSort_eq,
      List.take_of_length_le hl]
  | c :: cs, st, hs, hl => by
    rw [List.foldl_cons,
      foldl_AddResult_eq n cs (AddResult n st c) (AddResult_sorted hs n c)
        (AddResult_length hl c)]
    unfold AddResult
    by_cases hlen : st.length < n
    · rw [if_pos hlen]
      have hperm : (List.orderedInsert (· ≤ ·) c st ++ cs).Perm
          (st ++ c :: cs) :=
        (((List.perm_orderedInsert _ c st).append_right cs).trans
          List.perm_middle.symm)
      rw [sortA_eq_of_perm hperm]
    · rw [if_neg hlen]
      cases hgl : st.getLast? with
      | none =>
        have hst : st = [] := by
          cases st with
          | nil => rfl
          | cons a l => simp [List.getLast?_concat, List.getLast?] at hgl
        subst hst
        have hn : n = 0 := by simp at hlen; omega
        subst hn
        simp
      | some w =>
        dsimp only
        have hne : st ≠ [] := by intro he; subst he; simp at hgl
        have hlength : st.length = n := le_antisymm hl (not_lt.mp hlen)
        have hw : st.getLast hne = w := by
          rw [List.getLast?_eq_getLast st hne] at hgl
          exact Option.some.inj hgl
        have hsplit : st.dropLast ++ [w] = st := by
          rw [← hw]; exact List.dropLast_append_getLast hne
        by_cases hcw : c < w
        · rw [if_pos hcw]
          have hdl : ∀ x ∈ st.dropLast, x ≤ w := fun x hx =>
            sorted_le_getLast hs hgl x (List.mem_of_mem_dropLast hx)
          have hlenD : st.dropLast.length + 1 = n := by
            rw [List.length_dropLast]
            have hpos : 0 < st.length := List.length_pos.mpr hne
            omega
          obtain ⟨D, hD⟩ : ∃ D, st.dropLast = D := ⟨_, rfl⟩
          rw [hD] at hsplit hdl hlenD ⊢
          have hperm : (st ++ c :: cs).Perm
              ((List.orderedInsert (· ≤ ·) c D ++ cs) ++ [w]) := by
            rw [← hsplit]
            refine List.Perm.trans List.perm_middle ?_
            refine List.Perm.trans ?_
              (((List.perm_orderedInsert (· ≤ ·) c D).symm.append_right
                cs).append_right [w])
            have he : ((c :: D) ++ cs) ++ [w] = c :: (D ++ (cs ++ [w])) := by
              simp [List.append_assoc]
            rw [he, List.append_assoc]
            exact ((@List.perm_append_comm _ [w] cs).append_left D).cons c
          rw [sortA_eq_of_perm hperm]
          refine (take_sortA_snoc _ w n ?_).symm
          have hfull : (List.orderedInsert (· ≤ ·) c D).countP
              (fun x => x ≤ w) = D.length + 1 := by
            rw [(List.perm_orderedInsert (· ≤ ·) c D).countP_eq,
              List.countP_cons_of_pos _ _ (by simpa using Nat.le_of_lt hcw),
              List.countP_eq_length.mpr (fun a ha => by simpa using hdl a ha)]
          rw [List.countP_append, hfull]
          omega
        · rw [if_neg hcw]
          have hperm : (st ++ c :: cs).Perm ((st ++ cs) ++ [c]) :=
            List.Perm.trans List.perm_middle
              (List.perm_append_singleton _ _).symm
          rw [sortA_eq_of_perm hperm]
          refine (take_sortA_snoc _ c n ?_).symm
          have hall : ∀ x ∈ st, x ≤ c := fun x hx =>
            le_trans (sorted_le_getLast hs hgl x hx) (not_lt.mp hcw)
          rw [List.countP_append,
            List.countP_eq_length.mpr (fun a ha => by simpa using hall a ha)]
          omega

/-- Claim C1: the Result Ranker is a bounded best-K collection.  Its size
never exceeds the cap n, after any sequence of offers it retains exactly
the n best-scoring (lowest-cost) candidates among all offered, and the
retained collection is independent of the order in which candidates were
offered (ties broken by cost only, which the cost-level statement makes
exact). -/
theorem claim1_bounded_bestK (n : Nat) (cs : List Nat) :
    (cs.foldl (AddResult n) []).length ≤ n ∧
    cs.foldl (AddResult n) [] = (sortA cs).take n ∧
    (∀ cs' : List Nat, cs.Perm cs' →
      cs.foldl (AddResult n) [] = cs'.foldl (AddResult n) []) := by
  have hmain : ∀ ds : List Nat,
      ds.foldl (AddResult n) [] = (sortA ds).take n := fun ds => by
    simpa using foldl_AddResult_eq n ds [] (by simp) (by simp)
  refine ⟨?_, hmain cs, fun cs' hp => ?_⟩
  · rw [hmain cs, List.length_take]
    exact min_le_left _ _
  · rw [hmain cs, hmain cs', sortA_eq_of_perm hp]

/-- Claim C1 witness: two concrete permutations of the same offers retain
the same best-2 collection. -/
theorem claim1_bounded_bestK_witness :
    ([5, 3, 8, 1, 9] : List Nat).foldl (AddResult 2) [] =
      ([9, 1, 3, 8, 5] : List Nat).foldl (AddResult 2) [] :=
  (claim1_bounded_bestK 2 [5, 3, 8, 1, 9]).2.2 [9, 1, 3, 8, 5] (by decide)

/-- Drain order of Query::FlushResults: the priority queue pops its worst
(max-cost) entry first, so the ascending ranker state leaves in reverse. -/
def popAllWorstFirst (st : List Nat) : List Nat := st.reverse

/-- FlushResults from query.cpp: pop everything worst-first into a scratch
vector, stream that vector to the callback in reverse (so best-first)
order, and lower the remaining-result budget by the number of results
flushed, floored at 0. -/
def FlushResults (budget : Int) (st : List Nat) : List Nat × Int :=
  ((popAllWorstFirst st).reverse, max 0 (budget - (st.length : Int)))

/-- Claim C2: Flush drains the collection and emits it in ascending-cost
(best-first) order, decrements the budget by exactly the number flushed
(floored at 0), does nothing on an empty collection, and on the cap-2 run
over costs 5, 3, 8, 1, 9 the flushed order is 1, 3. -/
theorem claim2_flush (budget : Int) (st : List Nat)
    (hs : List.Sorted (· ≤ ·) st) (hb : 0 ≤ budget) :
    (FlushResults budget st).1 = st ∧
    List.Sorted (· ≤ ·) (FlushResults budget st).1 ∧
    (FlushResults budget st).2 = max 0 (budget - (st.length : Int)) ∧
    (st = [] → (FlushResults budget st).1 = [] ∧
      (FlushResults budget st).2 = budget) ∧
    (FlushResults 2 (([5, 3, 8, 1, 9] : List Nat).foldl (AddResult 2) [])).1
      = [1, 3] := by
  refine ⟨by simp [FlushResults, popAllWorstFirst], ?_, rfl, ?_, by decide⟩
  · simpa [FlushResults, popAllWorstFirst] using hs
  · rintro rfl
    constructor
    · simp [FlushResults, popAllWorstFirst]
    · simp [FlushResults]
      omega

/-- Claim C2 witness: concrete flush of a sorted two-element collection. -/
theorem claim2_flush_witness :
    (FlushResults 10 [1, 3]).1 = [1, 3] :=
  (claim2_flush 10 [1, 3] (by decide) (by decide)).1


/-! ### Tokenizer (Query::Query constructor) -/

/-- Modelled from the spec: SplitUniString is the external delimiter-split
utility assumed correct by the spec; it cuts the normalized text into the
maximal runs of non-delimiter characters, producing no empty tokens.  The
accumulator holds the current token in reverse. -/
def splitAux (d : Nat → Bool) : List Nat → List Nat → List (List Nat)
  | [], acc => if acc.isEmpty then [] else [acc.reverse]
  | c :: cs, acc =>
    if d c then
      if acc.isEmpty then splitAux d cs [] else acc.reverse :: splitAux d cs []
    else splitAux d cs (c :: acc)

/-- SplitUniString applied to a character list with delimiter classifier d. -/
def SplitUniString (d : Nat → Bool) (s : List Nat) : List (List Nat) :=
  splitAux d s []

/-- Query state produced by the constructor: the keyword tokens and the
trailing in-progress token (m_keywords and m_prefix in the source). -/
structure QueryTokens where
  keywords : List (List Nat)
  pfxTok : List Nat
  deriving DecidableEq, Repr

/-- Capacity clamp at the end of the Query constructor: the source asserts
the 31-keyword bound and resizes the keyword vector down to 31 entries. -/
def clampKeywords (q : QueryTokens) : QueryTokens :=
  if 31 < q.keywords.length then ⟨q.keywords.take 31, q.pfxTok⟩ else q

/-- Query constructor from query.cpp: split the normalized text, move the
last token into the in-progress slot when the text does not end in a
delimiter, then clamp the keyword sequence to 31 entries.  The last
character of the raw text is read through getLastD, mirroring
LastUniChar. -/
def mkQuery (d : Nat → Bool) (text : List Nat) : QueryTokens :=
  let ks := SplitUniString d text
  clampKeywords
    (if ks ≠ [] ∧ d (text.getLastD 0) = false then
      ⟨ks.dropLast, ks.getLastD []⟩
    else ⟨ks, []⟩)

theorem clampKeywords_eq (q : QueryTokens) :
    clampKeywords q = ⟨q.keywords.take 31, q.pfxTok⟩ := by
  unfold clampKeywords
  split
  · rfl
  · rename_i h
    rw [List.take_of_length_le (by omega)]

theorem splitAux_ne_nil (d : Nat → Bool) :
    ∀ (text : List Nat) (acc : List Nat), text ≠ [] →
      d (text.getLastD 0) = false → splitAux d text acc ≠ []
  | [], _, hne, _ => absurd rfl hne
  | [c], acc, _, hd => by
    have hc : d c = false := by simpa using hd
    simp [splitAux, hc]
  | c :: c2 :: cs, acc, _, hd => by
    have hd2 : d ((c2 :: cs).getLastD 0) = false := by
      rw [List.getLastD_eq_getLast?] at hd ⊢
      simpa using hd
    have ih := fun acc2 =>
      splitAux_ne_nil d (c2 :: cs) acc2 (by simp) hd2
    by_cases hdc : d c
    · by_cases hacc : acc.isEmpty
      · simpa [splitAux, hdc, hacc] using ih []
      · simp [splitAux, hdc, hacc]
    · simpa [splitAux, hdc] using ih (c :: acc)

theorem mkQuery_of_delim (d : Nat → Bool) (text : List Nat)
    (hd : d (text.getLastD 0) = true) :
    mkQuery d text = ⟨(SplitUniString d text).take 31, []⟩ := by
  simp only [mkQuery]
  rw [if_neg (by rw [not_and]; intro h2; rw [hd]; simp), clampKeywords_eq]

theorem mkQuery_of_not_delim (d : Nat → Bool) (text : List Nat)
    (hne : text ≠ []) (hd : d (text.getLastD 0) = false) :
    mkQuery d text = ⟨((SplitUniString d text).dropLast).take 31,
      (SplitUniString d text).getLastD []⟩ := by
  simp only [mkQuery]
  rw [if_pos ⟨splitAux_ne_nil d text [] hne hd, hd⟩, clampKeywords_eq]

/-- Claim C7: tokenization at query construction.  Text ending in a
delimiter leaves the in-progress slot empty and keeps all retained tokens
as keywords; text not ending in a delimiter moves exactly the last
produced token into the in-progress slot; in both cases only the first 31
keyword tokens are retained, so the keyword count never exceeds 31 and
tokens past index 30 are dropped. -/
theorem claim7_tokenizer (d : Nat → Bool) (text : List Nat) :
    (d (text.getLastD 0) = true →
      (mkQuery d text).pfxTok = [] ∧
      (mkQuery d text).keywords = (SplitUniString d text).take 31) ∧
    (text ≠ [] → d (text.getLastD 0) = false →
      (mkQuery d text).pfxTok = (SplitUniString d text).getLastD [] ∧
      (mkQuery d text).keywords =
        ((SplitUniString d text).dropLast).take 31) ∧
    (mkQuery d text).keywords.length ≤ 31 := by
  refine ⟨fun hd => ?_, fun hne hd => ?_, ?_⟩
  · rw [mkQuery_of_delim d text hd]
    exact ⟨rfl, rfl⟩
  · rw [mkQuery_of_not_delim d text hne hd]
    exact ⟨rfl, rfl⟩
  · by_cases hd : d (text.getLastD 0) = true
    · rw [mkQuery_of_delim d text hd]
      exact List.length_take_le 31 (SplitUniString d text)
    · by_cases hne : text = []
      · subst hne
        simp [mkQuery, SplitUniString, splitAux, clampKeywords]
      · rw [mkQuery_of_not_delim d text hne (by simpa using hd)]
        exact List.length_take_le 31 (SplitUniString d text).dropLast

/-- Delimiter classifier for the concrete witness text: character 0. -/
def dWit : Nat → Bool := fun c => c == 0

/-- Witness text of 40 raw one-character tokens, each followed by the
delimiter, so the text ends in a delimiter. -/
def text40 : List Nat := List.flatten (List.replicate 40 [1, 0])

/-- Claim C7 witness: a query of 40 raw tokens ending in a delimiter
retains exactly 31 keywords and an empty in-progress slot. -/
theorem claim7_tokenizer_witness :
    (mkQuery dWit text40).pfxTok = [] ∧
    (mkQuery dWit text40).keywords.length = 31 := by
  have h := (claim7_tokenizer dWit text40).1 (by decide)
  refine ⟨h.1, ?_⟩
  rw [h.2]
  decide

/-! ### Local feature scan filter (FeatureProcessor) -/

/-- Acceptance decision of the FeatureProcessor call operator in query.cpp.
The two matcher scores are taken as inputs (the KeywordMatcher class is
external to the analysed translation unit; the spec describes it as
producing a best keyword-match score and a best prefix-match score over
the feature names), as is the first component of the text-drawable scale
range computed by the indexer.  A feature is offered to the ranker only
when the prefix score is within the ceiling for the query prefix length,
the keyword score is within the keyword ceiling, and the drawable scale
range is non-degenerate. -/
def processFeature (pfxLen : Nat) (prefixScore matchScore : Nat)
    (scaleFirst : Int) : Bool :=
  if prefixScore ≤ GetMaxPrefixMatchScore pfxLen then
    if matchScore ≤ GetMaxKeywordMatchScore then
      if scaleFirst < 0 then false else true
    else false
  else false

/-- Claim C10: a candidate is added to the ranker exactly when its prefix
score is within the prefix ceiling, its keyword score is within the
keyword ceiling of 512, and the feature is text-drawable at some scale;
in particular a perfectly matching feature (both scores 0) with an empty
drawable-scale range (negative lower bound) is silently discarded. -/
theorem claim10_feature_filter (pfxLen prefixScore matchScore : Nat)
    (scaleFirst : Int) :
    (processFeature pfxLen prefixScore matchScore scaleFirst = true ↔
      (prefixScore ≤ GetMaxPrefixMatchScore pfxLen ∧
        matchScore ≤ 512 ∧ 0 ≤ scaleFirst)) ∧
    processFeature pfxLen 0 0 (-1) = false := by
  constructor
  · simp only [processFeature]
    split_ifs with h1 h2 h3
    · simp only [Bool.false_eq_true, false_iff]
      intro hcon
      exact absurd hcon.2.2 (by omega)
    · simp only [true_iff]
      exact ⟨h1, by simpa [GetMaxKeywordMatchScore] using h2, by omega⟩
    · simp only [Bool.false_eq_true, false_iff]
      intro hcon
      exact h2 (by simpa [GetMaxKeywordMatchScore] using hcon.2.1)
    · simp only [Bool.false_eq_true, false_iff]
      intro hcon
      exact h1 hcon.1
  · simp [processFeature, GetMaxKeywordMatchScore]

/-! ### Category Resolver, no-keyword branch (Query::Search) -/

/-- Category dictionary synonym: display name characters (already
normalized; normalization is an external utility assumed correct) and the
minimum prefix length required before it may be suggested
(m_prefixLengthToSuggest in the source). -/
structure CategoryName where
  name : List Nat
  prefixLengthToSuggest : Nat
  deriving DecidableEq, Repr

/-- Category dictionary entry: synonym names plus the entity-type codes the
entry denotes. -/
structure Category where
  synonyms : List CategoryName
  types : List Nat
  deriving DecidableEq, Repr

/-- PREFIX_LEN_BITS constant from query.cpp. -/
def PREFIX_LEN_BITS : Nat := 5

/-- Modelled from the spec: a KeywordMatcher built with no keyword tokens
and the query prefix reports, after processing one synonym name, the
PrefixMatch cost of the prefix against that name under the length-derived
prefix ceiling (the KeywordMatcher class itself is external to the
analysed translation unit). -/
def synPrefixScore (pfx : List Nat) (syn : CategoryName) : Nat :=
  PrefixMatch pfx syn.name (GetMaxPrefixMatchScore pfx.length)

/-- Suggestion penalty computed in the no-keyword branch of Query::Search:
(prefix-match score << PREFIX_LEN_BITS) + minimum trigger length. -/
def synPenalty (pfx : List Nat) (syn : CategoryName) : Nat :=
  (synPrefixScore pfx syn <<< PREFIX_LEN_BITS) + syn.prefixLengthToSuggest

/-- Initial best penalty of the per-category scan in Query::Search. -/
def initialBestPenalty (pfx : List Nat) : Nat :=
  ((GetMaxPrefixMatchScore pfx.length + 1) <<< PREFIX_LEN_BITS) - 1

/-- One synonym step of the per-category best-suggestion scan: a synonym is
considered only when the prefix reaches its trigger length, and replaces
the incumbent only with a strictly lower penalty. -/
def suggestStep (pfx : List Nat) (acc : List Nat × Nat) (syn : CategoryName) :
    List Nat × Nat :=
  if syn.prefixLengthToSuggest ≤ pfx.length then
    if synPenalty pfx syn < acc.2 then (syn.name, synPenalty pfx syn) else acc
  else acc

/-- Per-category suggestion of the no-keyword branch of Query::Search: the
synonyms of one dictionary entry are scanned for the best penalty and a
suggestion is emitted for the entry exactly when the best name is
non-empty. -/
def categorySuggestion (pfx : List Nat) (cat : Category) :
    Option (List Nat × Nat) :=
  let best := cat.synonyms.foldl (suggestStep pfx) ([], initialBestPenalty pfx)
  if best.1 ≠ [] then some best else none

/-- Suggestion results of the whole category phase, in dictionary order. -/
def categoryPhaseSuggestions (pfx : List Nat) (dict : List Category) :
    List (List Nat × Nat) :=
  dict.filterMap (categorySuggestion pfx)

theorem suggestFold_spec (pfx : List Nat) :
    ∀ (syns : List CategoryName) (acc : List Nat × Nat),
      (syns.foldl (suggestStep pfx) acc = acc ∨
        ∃ syn ∈ syns, syn.prefixLengthToSuggest ≤ pfx.length ∧
          syns.foldl (suggestStep pfx) acc =
            (syn.name, synPenalty pfx syn) ∧
          (syns.foldl (suggestStep pfx) acc).2 < acc.2) ∧
      (syns.foldl (suggestStep pfx) acc).2 ≤ acc.2 ∧
      (∀ syn ∈ syns, syn.prefixLengthToSuggest ≤ pfx.length →
        (syns.foldl (suggestStep pfx) acc).2 ≤ synPenalty pfx syn)
  | [], acc => ⟨Or.inl rfl, le_refl _, by simp⟩
  | syn :: syns, acc => by
    have ih := suggestFold_spec pfx syns (suggestStep pfx acc syn)
    rw [List.foldl_cons]
    by_cases hgate : syn.prefixLengthToSuggest ≤ pfx.length
    · by_cases hlt : synPenalty pfx syn < acc.2
      · have hstep : suggestStep pfx acc syn =
            (syn.name, synPenalty pfx syn) := by
          simp [suggestStep, hgate, hlt]
        rw [hstep] at ih ⊢
        refine ⟨?_, le_trans ih.2.1 (le_of_lt hlt), ?_⟩
        · rcases ih.1 with he | ⟨syn2, hmem, hg2, he2, hlt2⟩
          · refine Or.inr ⟨syn, by simp, hgate, he, ?_⟩
            rw [he]
            exact hlt
          · exact Or.inr ⟨syn2, List.mem_cons_of_mem _ hmem, hg2, he2,
              lt_trans hlt2 hlt⟩
        · intro syn2 hmem hg2
          rcases List.mem_cons.mp hmem with rfl | hmem2
          · exact ih.2.1
          · exact ih.2.2 syn2 hmem2 hg2
      · have hstep : suggestStep pfx acc syn = acc := by
          simp [suggestStep, hgate, hlt]
        rw [hstep] at ih ⊢
        refine ⟨?_, ih.2.1, ?_⟩
        · rcases ih.1 with he | ⟨syn2, hmem, hg2, he2, hlt2⟩
          · exact Or.inl he
          · exact Or.inr ⟨syn2, List.mem_cons_of_mem _ hmem, hg2, he2, hlt2⟩
        · intro syn2 hmem hg2
          rcases List.mem_cons.mp hmem with rfl | hmem2
          · exact le_trans ih.2.1 (not_lt.mp hlt)
          · exact ih.2.2 syn2 hmem2 hg2
    · have hstep : suggestStep pfx acc syn = acc := by
        simp [suggestStep, hgate]
      rw [hstep] at ih ⊢
      refine ⟨?_, ih.2.1, ?_⟩
      · rcases ih.1 with he | ⟨syn2, hmem, hg2, he2, hlt2⟩
        · exact Or.inl he
        · exact Or.inr ⟨syn2, List.mem_cons_of_mem _ hmem, hg2, he2, hlt2⟩
      · intro syn2 hmem hg2
        rcases List.mem_cons.mp hmem with rfl | hmem2
        · exact absurd hg2 hgate
        · exact ih.2.2 syn2 hmem2 hg2

theorem shiftLeft_five_lor_eq_add (a b : Nat) (hb : b < 32) :
    (a <<< 5) ||| b = (a <<< 5) + b := by
  have h25 : (2 : Nat) ^ 5 = 32 := by norm_num
  have hb2 : b < 2 ^ 5 := by omega
  rw [Nat.shiftLeft_eq, Nat.mul_comm]
  exact (Nat.mul_add_lt_is_or hb2 a).symm

theorem GetMaxPrefixMatchScore_pos (n : Nat) :
    1 ≤ GetMaxPrefixMatchScore n := by
  unfold GetMaxPrefixMatchScore
  split_ifs <;> omega

/-- Claim C8 counterexample: with prefix characters 3, 1 and a concrete
two-entry dictionary, the no-keyword category phase emits two suggestions
(one per dictionary entry) and retains the entry-1 suggestion of penalty 2
even though the best penalty across the whole dictionary is 1, so the
phase does not retain a single best suggestion across the dictionary. -/
theorem claim8_counterexample :
    categoryPhaseSuggestions [3, 1]
        [⟨[⟨[3, 1, 6, 5], 2⟩], [100]⟩, ⟨[⟨[3, 1, 18], 1⟩], [200]⟩] =
      [([3, 1, 6, 5], 2), ([3, 1, 18], 1)] ∧
    ¬(categoryPhaseSuggestions [3, 1]
        [⟨[⟨[3, 1, 6, 5], 2⟩], [100]⟩, ⟨[⟨[3, 1, 18], 1⟩], [200]⟩]).length ≤ 1
    := by decide

/-- Claim C8 (amended): with no keywords and a non-empty prefix the
Category Resolver works per dictionary entry: it considers only synonyms
whose minimum trigger length is at most the prefix length, scores each
considered synonym with penalty (prefixMatchCost << 5) | minTriggerLength
(match quality dominates, shorter trigger length breaks ties), retains the
single best (lowest-penalty) suggestion of that entry, and emits it as one
completion suggestion exactly when some considered synonym matches within
the prefix ceiling.  Amended from the claim only in scope: the best
suggestion is kept per dictionary entry and one suggestion is emitted per
matching entry, not a single best across the whole dictionary. -/
theorem claim8_amended_suggestion (pfx : List Nat) (cat : Category)
    (hp : pfx ≠ [])
    (htrig : ∀ syn ∈ cat.synonyms, syn.prefixLengthToSuggest < 32) :
    (∀ r ∈ categorySuggestion pfx cat,
      ∃ syn ∈ cat.synonyms,
        syn.prefixLengthToSuggest ≤ pfx.length ∧
        r.1 = syn.name ∧
        r.2 = (synPrefixScore pfx syn <<< 5) ||| syn.prefixLengthToSuggest ∧
        synPrefixScore pfx syn = 0 ∧
        (∀ syn2 ∈ cat.synonyms, syn2.prefixLengthToSuggest ≤ pfx.length →
          r.2 ≤ synPenalty pfx syn2)) ∧
    (categorySuggestion pfx cat = none →
      ∀ syn ∈ cat.synonyms, syn.prefixLengthToSuggest ≤ pfx.length →
        GetMaxPrefixMatchScore pfx.length < synPrefixScore pfx syn) := by
  have hspec := suggestFold_spec pfx cat.synonyms ([], initialBestPenalty pfx)
  have hpos := GetMaxPrefixMatchScore_pos pfx.length
  have hinit : initialBestPenalty pfx =
      (GetMaxPrefixMatchScore pfx.length + 1) * 32 - 1 := by
    rw [initialBestPenalty, PREFIX_LEN_BITS, Nat.shiftLeft_eq]
  have hscore_of_lt : ∀ syn : CategoryName,
      syn.prefixLengthToSuggest < 32 →
      synPenalty pfx syn < initialBestPenalty pfx →
      synPrefixScore pfx syn = 0 := by
    intro syn h32 hlt
    rcases PrefixMatch_dichotomy pfx syn.name
        (GetMaxPrefixMatchScore pfx.length) with h0 | hfail
    · exact h0
    · exfalso
      have hpen : synPenalty pfx syn =
          (GetMaxPrefixMatchScore pfx.length + 1) * 32
            + syn.prefixLengthToSuggest := by
        rw [synPenalty, synPrefixScore, hfail, PREFIX_LEN_BITS,
          Nat.shiftLeft_eq]
      rw [hpen, hinit] at hlt
      omega
  constructor
  · intro r hr
    rw [categorySuggestion] at hr
    set best := cat.synonyms.foldl (suggestStep pfx)
      ([], initialBestPenalty pfx) with hbest
    by_cases hne : best.1 ≠ []
    · rw [if_pos hne] at hr
      have hrb : best = r := by simpa using hr
      subst hrb
      rcases hspec.1 with he | ⟨syn, hmem, hgate, he, hlt⟩
      · rw [he] at hne
        simp at hne
      · have h32 := htrig syn hmem
        have hlt2 : synPenalty pfx syn < initialBestPenalty pfx := by
          rw [he] at hlt
          simpa using hlt
        have hsc : synPrefixScore pfx syn = 0 := hscore_of_lt syn h32 hlt2
        refine ⟨syn, hmem, hgate, by rw [he], ?_, hsc, ?_⟩
        · rw [he, shiftLeft_five_lor_eq_add _ _ h32]
          simp [synPenalty, PREFIX_LEN_BITS]
        · intro syn2 hmem2 hg2
          exact hspec.2.2 syn2 hmem2 hg2
    · rw [if_neg hne] at hr
      simp at hr
  · intro hnone syn hmem hgate
    rw [categorySuggestion] at hnone
    set best := cat.synonyms.foldl (suggestStep pfx)
      ([], initialBestPenalty pfx) with hbest
    by_cases hne : best.1 ≠ []
    · rw [if_pos hne] at hnone
      simp at hnone
    · have hb1 : best.1 = [] := by simpa using hne
      by_contra hcon
      have hsc0 : synPrefixScore pfx syn = 0 := by
        rcases PrefixMatch_dichotomy pfx syn.name
            (GetMaxPrefixMatchScore pfx.length) with h0 | hfail
        · exact h0
        · exact absurd (by rw [synPrefixScore, hfail]; omega) hcon
      have hpenlt : synPenalty pfx syn < initialBestPenalty pfx := by
        have h32 := htrig syn hmem
        rw [synPenalty, hsc0, PREFIX_LEN_BITS, Nat.shiftLeft_eq, hinit]
        have := hpos
        omega
      have hble : best.2 ≤ synPenalty pfx syn :=
        hspec.2.2 syn hmem hgate
      rcases hspec.1 with he | ⟨syn2, hmem2, hg2, he2, hlt2⟩
      · rw [he] at hble
        simp at hble
        omega
      · have h32b := htrig syn2 hmem2
        have hsc2 : synPrefixScore pfx syn2 = 0 := by
          refine hscore_of_lt syn2 h32b ?_
          rw [he2] at hlt2
          simpa using hlt2
        have hnm2 : syn2.name ≠ [] := by
          rcases (PrefixMatch_eq_zero_iff pfx syn2.name
              (GetMaxPrefixMatchScore pfx.length)).mp hsc2 with ⟨rest, hrest⟩
          rw [hrest]
          intro hc
          rcases List.append_eq_nil.mp hc with ⟨h1, h2⟩
          exact hp h1
        rw [he2] at hb1
        exact hnm2 hb1

/-- Claim C8 witness: the amended per-entry characterization applied to the
first counterexample entry. -/
theorem claim8_amended_suggestion_witness :
    ∃ syn ∈ (⟨[⟨[3, 1, 6, 5], 2⟩], [100]⟩ : Category).synonyms,
      syn.prefixLengthToSuggest ≤ ([3, 1] : List Nat).length ∧
      (([3, 1, 6, 5] : List Nat), (2 : Nat)).1 = syn.name ∧
      (([3, 1, 6, 5] : List Nat), (2 : Nat)).2 =
        (synPrefixScore [3, 1] syn <<< 5) ||| syn.prefixLengthToSuggest ∧
      synPrefixScore [3, 1] syn = 0 ∧
      (∀ syn2 ∈ (⟨[⟨[3, 1, 6, 5], 2⟩], [100]⟩ : Category).synonyms,
        syn2.prefixLengthToSuggest ≤ ([3, 1] : List Nat).length →
        (([3, 1, 6, 5] : List Nat), (2 : Nat)).2 ≤ synPenalty [3, 1] syn2) :=
  (claim8_amended_suggestion [3, 1] ⟨[⟨[3, 1, 6, 5], 2⟩], [100]⟩
      (by decide) (by decide)).1 ([3, 1, 6, 5], 2) (by decide)

/-! ### Category Resolver, keyword branch: per-type skip masks -/

/-- Synonym token mask computed in the keyword branch of Query::Search:
when the synonym token sequence equals a leading segment of the keyword
sequence the low n bits are set; when it equals a trailing segment, n bits
starting at position k - n are set (k keywords, n synonym tokens); both
alignments can contribute, and a synonym longer than the keyword sequence
contributes nothing. -/
def synMask (keywords : List (List Nat)) (tokens : List (List Nat)) : Nat :=
  if tokens.length ≤ keywords.length then
    (if keywords.take tokens.length = tokens
      then (1 <<< tokens.length) - 1 else 0) |||
    (if keywords.drop (keywords.length - tokens.length) = tokens
      then ((1 <<< tokens.length) - 1)
        <<< (keywords.length - tokens.length) else 0)
  else 0

/-- Per-synonym update of the skip-mask table in Query::Search: the
synonym mask is ORed into the table entry of every type code the category
denotes. -/
def applySyn (d : Nat → Bool) (keywords : List (List Nat))
    (types : List Nat) (skip : Nat → Nat) (syn : CategoryName) :
    Nat → Nat :=
  fun t => if t ∈ types
    then skip t ||| synMask keywords (SplitUniString d syn.name)
    else skip t

/-- Per-category update of the skip-mask table across all its synonyms. -/
def applyCategory (d : Nat → Bool) (keywords : List (List Nat))
    (skip : Nat → Nat) (cat : Category) : Nat → Nat :=
  cat.synonyms.foldl (applySyn d keywords cat.types) skip

/-- Skip-mask table built by the keyword branch of Query::Search over the
whole dictionary, starting from the empty table (GetKeywordsToSkipForType
reports 0 for a type with no entry). -/
def computeSkipMasks (d : Nat → Bool) (keywords : List (List Nat))
    (dict : List Category) : Nat → Nat :=
  dict.foldl (applyCategory d keywords) (fun _ => 0)

/-- Per-feature skip mask in FeatureProcessor: OR of the table entries of
all the feature's type codes. -/
def featureSkipMask (skip : Nat → Nat) (types : List Nat) : Nat :=
  types.foldl (fun m t => m ||| skip t) 0

/-- Keyword filtering in FeatureProcessor: a keyword position whose bit is
set in the feature's skip mask is excluded before matching; only the
first 32 positions are scanned. -/
def filterKeywords (mask : Nat) (kws : List (List Nat)) : List (List Nat) :=
  (((kws.take 32).enum).filter
    (fun p => (mask &&& (1 <<< p.1)) = 0)).map (fun p => p.2)

theorem testBit_synMask (keywords tokens : List (List Nat)) (i : Nat) :
    (synMask keywords tokens).testBit i = true ↔
      (tokens.length ≤ keywords.length ∧
        ((keywords.take tokens.length = tokens ∧ i < tokens.length) ∨
         (keywords.drop (keywords.length - tokens.length) = tokens ∧
           keywords.length - tokens.length ≤ i ∧ i < keywords.length))) := by
  unfold synMask
  by_cases hn : tokens.length ≤ keywords.length
  · rw [if_pos hn, Nat.testBit_lor]
    by_cases h1 : keywords.take tokens.length = tokens <;>
      by_cases h2 : keywords.drop (keywords.length - tokens.length) = tokens <;>
        simp [h1, h2, hn, Nat.one_shiftLeft, Nat.testBit_two_pow_sub_one,
          Nat.testBit_shiftLeft] <;> omega
  · rw [if_neg hn]
    simp [hn]

theorem testBit_orFold (skip : Nat → Nat) (i : Nat) :
    ∀ (types : List Nat) (m : Nat),
      ((types.foldl (fun m2 t => m2 ||| skip t) m).testBit i = true ↔
        (m.testBit i = true ∨ ∃ ty ∈ types, (skip ty).testBit i = true))
  | [], m => by simp
  | t :: ts, m => by
    rw [List.foldl_cons, testBit_orFold skip i ts (m ||| skip t),
      Nat.testBit_lor]
    simp only [Bool.or_eq_true, List.mem_cons]
    constructor
    · rintro ((h | h) | ⟨ty, hty, h⟩)
      · exact Or.inl h
      · exact Or.inr ⟨t, Or.inl rfl, h⟩
      · exact Or.inr ⟨ty, Or.inr hty, h⟩
    · rintro (h | ⟨ty, (rfl | hty), h⟩)
      · exact Or.inl (Or.inl h)
      · exact Or.inl (Or.inr h)
      · exact Or.inr ⟨ty, hty, h⟩

theorem testBit_applyCategory (d : Nat → Bool) (keywords : List (List Nat))
    (types : List Nat) (t i : Nat) :
    ∀ (syns : List CategoryName) (skip : Nat → Nat),
      ((syns.foldl (applySyn d keywords types) skip) t).testBit i = true ↔
        ((skip t).testBit i = true ∨
          (t ∈ types ∧ ∃ syn ∈ syns,
            (synMask keywords (SplitUniString d syn.name)).testBit i = true))
  | [], skip => by simp
  | syn :: syns, skip => by
    rw [List.foldl_cons,
      testBit_applyCategory d keywords types t i syns
        (applySyn d keywords types skip syn)]
    unfold applySyn
    by_cases ht : t ∈ types
    · simp only [ht, if_true, Nat.testBit_lor, Bool.or_eq_true,
        List.mem_cons, true_and]
      constructor
      · rintro ((h | h) | ⟨syn2, hm, h⟩)
        · exact Or.inl h
        · exact Or.inr ⟨syn, Or.inl rfl, h⟩
        · exact Or.inr ⟨syn2, Or.inr hm, h⟩
      · rintro (h | ⟨syn2, (rfl | hm), h⟩)
        · exact Or.inl (Or.inl h)
        · exact Or.inl (Or.inr h)
        · exact Or.inr ⟨syn2, hm, h⟩
    · simp [ht]

theorem testBit_computeSkipMasks_aux (d : Nat → Bool)
    (keywords : List (List Nat)) (t i : Nat) :
    ∀ (dict : List Category) (skip : Nat → Nat),
      ((dict.foldl (applyCategory d keywords) skip) t).testBit i = true ↔
        ((skip t).testBit i = true ∨
          ∃ cat ∈ dict, t ∈ cat.types ∧ ∃ syn ∈ cat.synonyms,
            (synMask keywords (SplitUniString d syn.name)).testBit i = true)
  | [], skip => by simp
  | cat :: dict, skip => by
    rw [List.foldl_cons,
      testBit_computeSkipMasks_aux d keywords t i dict
        (applyCategory d keywords skip cat)]
    rw [show applyCategory d keywords skip cat =
        cat.synonyms.foldl (applySyn d keywords cat.types) skip from rfl]
    rw [testBit_applyCategory d keywords cat.types t i cat.synonyms skip]
    simp only [List.mem_cons]
    constructor
    · rintro ((h | h) | ⟨cat2, hm, h⟩)
      · exact Or.inl h
      · exact Or.inr ⟨cat, Or.inl rfl, h⟩
      · exact Or.inr ⟨cat2, Or.inr hm, h⟩
    · rintro (h | ⟨cat2, (rfl | hm), h⟩)
      · exact Or.inl (Or.inl h)
      · exact Or.inl (Or.inr h)
      · exact Or.inr ⟨cat2, hm, h⟩

theorem mask_and_shift (mask i : Nat) :
    (mask &&& (1 <<< i)) = 0 ↔ mask.testBit i = false := by
  rw [Nat.one_shiftLeft, Nat.and_two_pow]
  rcases Bool.eq_false_or_eq_true (mask.testBit i) with hb | hb <;>
    simp [hb, (Nat.two_pow_pos i).ne']

/-- Claim C9: the Category Resolver tests each dictionary entry's synonym
token sequence as a leading and as a trailing segment of the keyword
sequence and, on a match, ORs the mask of exactly the consumed keyword
positions (the first n for a leading match, the last n for a trailing
match) into the skip mask of every entity-type code the entry denotes;
the feature scan then ORs the masks of a feature's types and excludes
exactly the masked keyword positions from matching. -/
theorem claim9_skip_masks (d : Nat → Bool) (keywords : List (List Nat))
    (dict : List Category) (skip : Nat → Nat) (types : List Nat)
    (_hkw : keywords ≠ []) :
    (∀ t i, ((computeSkipMasks d keywords dict) t).testBit i = true ↔
      ∃ cat ∈ dict, t ∈ cat.types ∧ ∃ syn ∈ cat.synonyms,
        (SplitUniString d syn.name).length ≤ keywords.length ∧
        ((keywords.take (SplitUniString d syn.name).length =
            SplitUniString d syn.name ∧
          i < (SplitUniString d syn.name).length) ∨
         (keywords.drop
            (keywords.length - (SplitUniString d syn.name).length) =
            SplitUniString d syn.name ∧
          keywords.length - (SplitUniString d syn.name).length ≤ i ∧
          i < keywords.length))) ∧
    (∀ i, (featureSkipMask skip types).testBit i = true ↔
      ∃ ty ∈ types, (skip ty).testBit i = true) ∧
    filterKeywords (featureSkipMask skip types) keywords =
      (((keywords.take 32).enum).filter
        (fun p => !(featureSkipMask skip types).testBit p.1)).map
        (fun p => p.2) := by
  refine ⟨fun t i => ?_, fun i => ?_, ?_⟩
  · rw [computeSkipMasks,
      testBit_computeSkipMasks_aux d keywords t i dict (fun _ => 0)]
    simp only [Nat.zero_testBit, Bool.false_eq_true, false_or]
    constructor
    · rintro ⟨cat, hcat, ht, syn, hsyn, hbit⟩
      exact ⟨cat, hcat, ht, syn, hsyn,
        (testBit_synMask keywords (SplitUniString d syn.name) i).mp hbit⟩
    · rintro ⟨cat, hcat, ht, syn, hsyn, hbit⟩
      exact ⟨cat, hcat, ht, syn, hsyn,
        (testBit_synMask keywords (SplitUniString d syn.name) i).mpr hbit⟩
  · rw [featureSkipMask, testBit_orFold skip i types 0]
    simp
  · unfold filterKeywords
    congr 1
    apply List.filter_congr
    intro p _
    rcases Bool.eq_false_or_eq_true
        ((featureSkipMask skip types).testBit p.1) with hb | hb
    · have hne : ¬(featureSkipMask skip types &&& (1 <<< p.1)) = 0 := by
        intro hc
        rw [(mask_and_shift (featureSkipMask skip types) p.1).mp hc] at hb
        simp at hb
      simp [hb, hne]
    · simp [hb, (mask_and_shift (featureSkipMask skip types) p.1).mpr hb]

/-- Claim C9 witness: the characterization at a concrete dictionary with a
two-token synonym matching both as leading and trailing segment of a
three-keyword query. -/
theorem claim9_skip_masks_witness :
    ((computeSkipMasks dWit [[7], [8], [7]]
        [⟨[⟨[7, 0, 8], 0⟩], [100]⟩]) 100).testBit 0 = true ∧
    ((computeSkipMasks dWit [[7], [8], [7]]
        [⟨[⟨[7, 0, 8], 0⟩], [100]⟩]) 100).testBit 2 = false := by
  have h := claim9_skip_masks dWit [[7], [8], [7]]
    [⟨[⟨[7, 0, 8], 0⟩], [100]⟩] (fun _ => 0) [] (by decide)
  refine ⟨(h.1 100 0).mpr ⟨⟨[⟨[7, 0, 8], 0⟩], [100]⟩, by decide, by decide,
      ⟨[7, 0, 8], 0⟩, by decide, by decide⟩, by decide⟩

/-! ### Query Orchestrator (Query::Search) -/

/-- Output events of the search stream: a flushed result of a given cost,
or the empty terminal sentinel Result. -/
inductive Output where
  | place : Nat → Output
  | sentinel : Output
  deriving DecidableEq, Repr

/-- Level-triggered cancellation flag.  The caller sets the flag at some
moment; the model indexes the sequential flag reads of the run and k is
the index of the first read that observes the flag set (none = never
set), so once observed it stays observed. -/
def isCanc : Option Nat → Nat → Bool
  | none, _ => false
  | some k, t => k ≤ t

/-- Candidate scan shared by the local-feature and trie phases: before
each candidate the termination flag is read (FeatureProcessor throws
StopException, caught in Query::Search; the same per-candidate check for
the trie phase is modelled from the spec, its driver being external to
the analysed translation unit); on observation the scan stops, otherwise
the candidate cost is offered to the ranker.  Returns the read counter
and the ranker state. -/
def scanLoop (c : Option Nat) (n : Nat) :
    Nat → List Nat → List Nat → Nat × List Nat
  | t, st, [] => (t, st)
  | t, st, x :: xs =>
    if isCanc c t then (t + 1, st)
    else scanLoop c n (t + 1) (AddResult n st x) xs

/-- Environment of one Query::Search run, abstracting the external
collaborators: the optional coordinate-parse result cost, the suggestion
costs produced by the category phase, whether the viewport scale is finer
than the world-overview threshold, the costs of the accepted local
candidates in enumeration order, whether a trie index is present, and the
costs of the accepted trie candidates. -/
structure SearchEnv where
  latlonRes : Option Nat
  suggestions : List Nat
  scaleHigh : Bool
  localCands : List Nat
  hasTrie : Bool
  trieCands : List Nat

/-- Ranker contents after the coordinate and category phases, under the
initial remaining-result budget of 10. -/
def phase12 (env : SearchEnv) : List Nat :=
  env.suggestions.foldl (AddResult 10)
    (match env.latlonRes with
      | some x => AddResult 10 [] x
      | none => [])

/-- Local feature phase: entered only at high viewport scale.  Three flag
reads happen before it starts (Query::Search reads the flag on entry,
after the coordinate phase and after the category phase). -/
def localScan (env : SearchEnv) (c : Option Nat) : Nat × List Nat :=
  if env.scaleHigh then scanLoop c 10 3 (phase12 env) env.localCands
  else (3, phase12 env)

/-- Trie phase of Query::Search: entered only when a trie root is present,
with the ranker drained by the first flush and the budget lowered to the
first flush remainder. -/
def trieScan (env : SearchEnv) (c : Option Nat) (t1 : Nat)
    (st : List Nat) : Nat × List Nat :=
  if env.hasTrie then
    scanLoop c (FlushResults 10 st).2.toNat (t1 + 2) [] env.trieCands
  else (t1 + 2, [])

/-- Tail of Query::Search after the local phase: first flush, the
budget-zero early sentinel (emitted without a further flag read), one
flag read before the trie phase, the trie phase, one flag read after it,
then the second flush and the final sentinel. -/
def searchTail (env : SearchEnv) (c : Option Nat) (t1 : Nat)
    (st : List Nat) : List Output :=
  if (FlushResults 10 st).2 = 0 then
    (FlushResults 10 st).1.map Output.place ++ [Output.sentinel]
  else if isCanc c (t1 + 1) then (FlushResults 10 st).1.map Output.place
  else if isCanc c ((trieScan env c t1 st).1) then
    (FlushResults 10 st).1.map Output.place
  else
    (FlushResults 10 st).1.map Output.place ++
      (FlushResults (FlushResults 10 st).2
        (trieScan env c t1 st).2).1.map Output.place ++ [Output.sentinel]

/-- Query::Search as a stream of outputs: flag reads on entry, after the
coordinate phase and after the category phase, per local candidate, after
the local phase, then the tail. -/
def runSearch (env : SearchEnv) (c : Option Nat) : List Output :=
  if isCanc c 0 then [] else
  if isCanc c 1 then [] else
  if isCanc c 2 then [] else
  if isCanc c ((localScan env c).1) then [] else
  searchTail env c ((localScan env c).1) ((localScan env c).2)

/-- Ranker contents after a local phase that observed no cancellation. -/
def rankerAfterLocal (env : SearchEnv) : List Nat :=
  if env.scaleHigh then env.localCands.foldl (AddResult 10) (phase12 env)
  else phase12 env

theorem isCanc_mono {c : Option Nat} {t t2 : Nat} (h : t ≤ t2)
    (hc : isCanc c t = true) : isCanc c t2 = true := by
  cases c with
  | none => simp [isCanc] at hc
  | some k =>
    simp only [isCanc, decide_eq_true_eq] at hc ⊢
    omega

theorem scanLoop_of_no_canc (c : Option Nat) (n : Nat) :
    ∀ (xs : List Nat) (t : Nat) (st : List Nat),
      isCanc c ((scanLoop c n t st xs).1) = false →
      scanLoop c n t st xs = (t + xs.length, xs.foldl (AddResult n) st)
  | [], t, st, _ => by simp [scanLoop]
  | x :: xs, t, st, h => by
    simp only [scanLoop] at h ⊢
    by_cases hc : isCanc c t
    · rw [if_pos hc] at h
      have h1 : isCanc c (t + 1) = false := h
      have h2 : isCanc c (t + 1) = true := isCanc_mono (Nat.le_succ t) hc
      rw [h1] at h2
      simp at h2
    · rw [if_neg hc] at h ⊢
      rw [scanLoop_of_no_canc c n xs (t + 1) (AddResult n st x) h]
      simp only [List.foldl_cons, List.length_cons]
      congr 1
      omega

theorem scanLoop_none (n : Nat) (xs : List Nat) (t : Nat) (st : List Nat) :
    scanLoop none n t st xs = (t + xs.length, xs.foldl (AddResult n) st) :=
  scanLoop_of_no_canc none n xs t st rfl

theorem localScan_none (env : SearchEnv) :
    localScan env none =
      ((if env.scaleHigh then 3 + env.localCands.length else 3),
        rankerAfterLocal env) := by
  unfold localScan rankerAfterLocal
  by_cases h : env.scaleHigh
  · simp [h, scanLoop_none]
  · simp [h]

theorem localScan_of_no_canc (env : SearchEnv) (c : Option Nat)
    (h : isCanc c ((localScan env c).1) = false) :
    localScan env c = localScan env none := by
  rw [localScan_none]
  unfold localScan at h ⊢
  by_cases hs : env.scaleHigh
  · rw [if_pos hs] at h ⊢
    rw [scanLoop_of_no_canc c 10 _ _ _ h]
    simp [rankerAfterLocal, hs]
  · rw [if_neg hs] at h ⊢
    simp [rankerAfterLocal, hs]

theorem trieScan_of_no_canc (env : SearchEnv) (c : Option Nat) (t1 : Nat)
    (st : List Nat)
    (h : isCanc c ((trieScan env c t1 st).1) = false) :
    trieScan env c t1 st = trieScan env none t1 st := by
  unfold trieScan at h ⊢
  by_cases ht : env.hasTrie
  · rw [if_pos ht] at h
    rw [if_pos ht, if_pos ht]
    rw [scanLoop_of_no_canc _ _ _ _ _ h, scanLoop_none]
  · rw [if_neg ht, if_neg ht]

theorem searchTail_none_eq (env : SearchEnv) (t1 : Nat) (st : List Nat) :
    searchTail env none t1 st =
      if (FlushResults 10 st).2 = 0 then
        (FlushResults 10 st).1.map Output.place ++ [Output.sentinel]
      else
        (FlushResults 10 st).1.map Output.place ++
          (FlushResults (FlushResults 10 st).2
            (trieScan env none t1 st).2).1.map Output.place ++
          [Output.sentinel] := by
  unfold searchTail
  by_cases hf : (FlushResults 10 st).2 = 0
  · rw [if_pos hf, if_pos hf]
  · rw [if_neg hf, if_neg hf]
    rw [if_neg (show ¬isCanc none (t1 + 1) = true by simp [isCanc])]
    rw [if_neg (show
      ¬isCanc none ((trieScan env none t1 st).1) = true by simp [isCanc])]

theorem searchTail_prefix (env : SearchEnv) (c : Option Nat) (t1 : Nat)
    (st : List Nat) :
    ∃ ys, searchTail env c t1 st ++ ys = searchTail env none t1 st := by
  rw [searchTail_none_eq]
  unfold searchTail
  by_cases hf : (FlushResults 10 st).2 = 0
  · rw [if_pos hf, if_pos hf]
    exact ⟨[], by simp⟩
  · rw [if_neg hf, if_neg hf]
    by_cases h1 : isCanc c (t1 + 1)
    · rw [if_pos h1]
      exact ⟨_, (List.append_assoc _ _ _).symm⟩
    · rw [if_neg h1]
      by_cases h2 : isCanc c ((trieScan env c t1 st).1)
      · rw [if_pos h2]
        exact ⟨_, (List.append_assoc _ _ _).symm⟩
      · rw [if_neg h2, trieScan_of_no_canc env c t1 st (by simpa using h2)]
        exact ⟨[], by simp⟩

theorem runSearch_none (env : SearchEnv) :
    runSearch env none =
      searchTail env none ((localScan env none).1) ((localScan env none).2)
    := by
  unfold runSearch
  rw [if_neg (show ¬isCanc none 0 = true by simp [isCanc])]
  rw [if_neg (show ¬isCanc none 1 = true by simp [isCanc])]
  rw [if_neg (show ¬isCanc none 2 = true by simp [isCanc])]
  rw [if_neg (show ¬isCanc none ((localScan env none).1) = true by
    simp [isCanc])]

/-- Claim C4: cancellation is cooperative and level-triggered.  Whatever
read first observes the flag, the cancelled run's output is a prefix of
the uncancelled run's output: everything flushed before the observation
stays delivered and nothing is emitted past the stopping checkpoint; and
the terminal sentinel is not guaranteed once the flag is observed before
the final flush, witnessed by a run whose output contains no sentinel at
all. -/
theorem claim4_cancellation :
    (∀ (env : SearchEnv) (c : Option Nat),
      ∃ ys, runSearch env c ++ ys = runSearch env none) ∧
    (∃ (env : SearchEnv) (k : Nat),
      Output.sentinel ∉ runSearch env (some k)) := by
  constructor
  · intro env c
    rw [runSearch_none]
    unfold runSearch
    by_cases h0 : isCanc c 0
    · rw [if_pos h0]; exact ⟨_, rfl⟩
    rw [if_neg h0]
    by_cases h1 : isCanc c 1
    · rw [if_pos h1]; exact ⟨_, rfl⟩
    rw [if_neg h1]
    by_cases h2 : isCanc c 2
    · rw [if_pos h2]; exact ⟨_, rfl⟩
    rw [if_neg h2]
    by_cases hp : isCanc c ((localScan env c).1)
    · rw [if_pos hp]; exact ⟨_, rfl⟩
    rw [if_neg hp, localScan_of_no_canc env c (by simpa using hp)]
    exact searchTail_prefix env c _ _
  · refine ⟨⟨none, [], false, [], false, []⟩, 0, ?_⟩
    decide

/-- Claim C3: a run in which the termination flag is never set ends with
exactly one empty sentinel Result, emitted exactly once whether or not any
results were produced; and when the remaining-result budget reaches zero
at the flush after the local feature phase, the sentinel is emitted
immediately and the trie phase is never entered (the output is the same
for every trie candidate list). -/
theorem claim3_sentinel (env : SearchEnv) :
    (∃ xs, runSearch env none = xs ++ [Output.sentinel] ∧
      Output.sentinel ∉ xs) ∧
    ((FlushResults 10 (rankerAfterLocal env)).2 = 0 →
      ∀ tc : List Nat,
        runSearch {env with trieCands := tc} none =
          (FlushResults 10 (rankerAfterLocal env)).1.map Output.place ++
            [Output.sentinel]) := by
  have hloc : ((localScan env none).2) = rankerAfterLocal env := by
    rw [localScan_none]
  constructor
  · rw [runSearch_none, searchTail_none_eq, hloc]
    by_cases hf : (FlushResults 10 (rankerAfterLocal env)).2 = 0
    · rw [if_pos hf]
      refine ⟨_, rfl, ?_⟩
      simp
    · rw [if_neg hf]
      refine ⟨_, rfl, ?_⟩
      simp
  · intro hf tc
    have henv : rankerAfterLocal {env with trieCands := tc} =
        rankerAfterLocal env := rfl
    have hloc2 : ((localScan {env with trieCands := tc} none).2) =
        rankerAfterLocal env := by
      rw [localScan_none, henv]
    rw [runSearch_none, searchTail_none_eq, hloc2, if_pos hf]

/-- Concrete environment for the Claim C3 witness: eleven local candidates
fill the cap of 10, so the remaining-result budget is exhausted at the
first flush. -/
def envWit : SearchEnv :=
  ⟨none, [], true, [0, 1, 2, 3, 4, 5, 6, 7, 8, 9, 10], true, [42]⟩

/-- Claim C3 witness: with the budget exhausted after the local flush the
run emits the flushed results and the sentinel immediately, and the trie
candidates do not matter. -/
theorem claim3_sentinel_witness :
    runSearch {envWit with trieCands := [7]} none =
      (FlushResults 10 (rankerAfterLocal envWit)).1.map Output.place ++
        [Output.sentinel] :=
  (claim3_sentinel envWit).2 (by decide) [7]

end OrganicSearch
